import Mathlib

/-!
# Mandelbrot renderer (`mandel.c`) and movie driver (`mandelmovie.c`)

Shallow embedding of the numeric kernel, the row-partitioned image computation, the
frame sequence and the semaphore-gated job scheduler, with the properties proved about them.

C `double` values are kept abstract: every definition that computes with doubles takes the
arithmetic as a `DoubleOps D` record, so the theorems hold for whatever (deterministic)
rounding the machine applies.  `exactOps` instantiates the record with exact rational
arithmetic and is used to evaluate the definitions on concrete inputs.
-/

namespace Mandel

/-! ## Arithmetic on `double` -/

/-- The operations on C `double` values used by the two programs. -/
structure DoubleOps (D : Type) where
  /-- `a + b` -/
  add : D → D → D
  /-- `a - b` -/
  sub : D → D → D
  /-- `a * b` -/
  mul : D → D → D
  /-- `a / b` -/
  div : D → D → D
  /-- conversion `int → double` -/
  ofInt : Int → D
  /-- value of a decimal floating constant such as `0.9` -/
  lit : ℚ → D
  /-- the comparison `a <= b` -/
  le : D → D → Bool
  /-- conversion `double → int` (truncation toward zero) -/
  toInt : D → Int

/-- Exact rational arithmetic as an instance of `DoubleOps`. -/
def exactOps : DoubleOps ℚ where
  add := fun a b => a + b
  sub := fun a b => a - b
  mul := fun a b => a * b
  div := fun a b => a / b
  ofInt := fun n => (n : ℚ)
  lit := fun q => q
  le := fun a b => decide (a ≤ b)
  toInt := fun q => Int.tdiv q.num q.den

/-! ## `mandel.c`: escape-time evaluation -/

/-- The `while` loop of `iterations_at_point`; `fuel` bounds the number of passes. -/
def iterations_loop {D : Type} (A : DoubleOps D) (x0 y0 : D) (max : Int) :
    Nat → D → D → Int → Int
  | 0, _, _, iter => iter
  | fuel + 1, x, y, iter =>
    if A.le (A.add (A.mul x x) (A.mul y y)) (A.ofInt 4) && decide (iter < max) then
      let xt := A.add (A.sub (A.mul x x) (A.mul y y)) x0
      let yt := A.add (A.mul (A.mul (A.ofInt 2) x) y) y0
      iterations_loop A x0 y0 max fuel xt yt (iter + 1)
    else iter

/-- `iterations_at_point(x, y, max)`: the loop can make at most `max` passes, so
`max.toNat` passes of fuel are enough (see `iterations_loop_fuel`). -/
def iterations_at_point {D : Type} (A : DoubleOps D) (x y : D) (max : Int) : Int :=
  iterations_loop A x y max max.toNat x y 0

/-- The orbit `z_0 = (x0, y0)`, `z_{n+1} = z_n^2 + (x0, y0)`, computed with the
expressions of the loop body. -/
def orbit {D : Type} (A : DoubleOps D) (x0 y0 : D) : Nat → D × D
  | 0 => (x0, y0)
  | n + 1 =>
    let z := orbit A x0 y0 n
    (A.add (A.sub (A.mul z.1 z.1) (A.mul z.2 z.2)) x0,
     A.add (A.mul (A.mul (A.ofInt 2) z.1) z.2) y0)

/-- The loop's continuation test `x*x + y*y <= 4` at a point. -/
def inside {D : Type} (A : DoubleOps D) (z : D × D) : Bool :=
  A.le (A.add (A.mul z.1 z.1) (A.mul z.2 z.2)) (A.ofInt 4)

/-- The orbit has escaped at step `k`: `|z_k|^2 > 4`, that is, the test
`x*x + y*y <= 4` fails there. -/
def Escaped {D : Type} (A : DoubleOps D) (x0 y0 : D) (k : Nat) : Prop :=
  inside A (orbit A x0 y0 k) = false

/-- Facts about the `double` value zero that the origin's orbit relies on
(all of them hold for IEEE-754 doubles and for exact arithmetic). -/
structure ZeroLaws {D : Type} (A : DoubleOps D) : Prop where
  mul_zero_zero : A.mul (A.ofInt 0) (A.ofInt 0) = A.ofInt 0
  sub_zero_zero : A.sub (A.ofInt 0) (A.ofInt 0) = A.ofInt 0
  add_zero_zero : A.add (A.ofInt 0) (A.ofInt 0) = A.ofInt 0
  two_mul_zero : A.mul (A.ofInt 2) (A.ofInt 0) = A.ofInt 0
  zero_le_four : A.le (A.ofInt 0) (A.ofInt 4) = true

/-! ## `mandel.c`: colour mapping -/

/-- Value of a 32-bit `int` after two's-complement wrap-around. -/
def wrap32 (n : Int) : Int := (n + 2147483648) % 4294967296 - 2147483648

/-- `iteration_to_color(iters, max)`: the product `0xFFFFFF * iters` is an `int`
multiplication, the quotient by `(double)max` is a `double` division and the
initialisation of `int color` truncates it. -/
def iteration_to_color {D : Type} (A : DoubleOps D) (iters max : Int) : Int :=
  A.toInt (A.div (A.ofInt (wrap32 (0xFFFFFF * iters))) (A.ofInt max))

/-! ## `mandel.c`: the raster and the row-partitioned computation -/

/-- Modelled from the spec: `imgRawImage` is declared in `jpegrw.h`, which is not among
the sources; the raster is `{width, height, pixels}` with `pixels` a row-major buffer
holding one colour value per pixel. -/
structure imgRawImage where
  width : Nat
  height : Nat
  data : List Int
deriving DecidableEq, Repr

/-- Modelled from the spec: `setPixelCOLOR` of `jpegrw.h` stores the colour in the cell of
pixel `(x, y)` of the row-major buffer. -/
def setPixelCOLOR (img : imgRawImage) (x y : Nat) (color : Int) : imgRawImage :=
  { img with data := img.data.set (y * img.width + x) color }

/-- Modelled from the spec: `initRawImage` followed by `setImageCOLOR(img, 0)` of
`jpegrw.h` gives a `width * height` raster filled with black. -/
def blackImage (width height : Nat) : imgRawImage :=
  { width := width, height := height, data := List.replicate (width * height) 0 }

/-- The arguments handed to one thread (the shared `img` pointer is the raster that
`compute_region` is run on). -/
structure ThreadArgs (D : Type) where
  xmin : D
  xmax : D
  ymin : D
  ymax : D
  max : Int
  start_row : Nat
  end_row : Nat

/-- `compute_region`: the rows `start_row ≤ j < end_row`, all columns. -/
def compute_region {D : Type} (A : DoubleOps D) (threadArgs : ThreadArgs D)
    (img0 : imgRawImage) : imgRawImage :=
  let width := img0.width
  (List.range' threadArgs.start_row (threadArgs.end_row - threadArgs.start_row)).foldl
    (fun img (j : Nat) =>
      (List.range width).foldl
        (fun img (i : Nat) =>
          let x := A.add threadArgs.xmin
            (A.div (A.mul (A.ofInt (i : Int)) (A.sub threadArgs.xmax threadArgs.xmin))
              (A.ofInt (width : Int)))
          let y := A.add threadArgs.ymin
            (A.div (A.mul (A.ofInt (j : Int)) (A.sub threadArgs.ymax threadArgs.ymin))
              (A.ofInt (img.height : Int)))
          let iters := iterations_at_point A x y threadArgs.max
          setPixelCOLOR img i j (iteration_to_color A iters threadArgs.max))
        img)
    img0

/-- First row of worker `t` in `compute_image`. -/
def start_row (height num_threads t : Nat) : Nat :=
  t * (height / num_threads)

/-- Row after the last row of worker `t` in `compute_image`. -/
def end_row (height num_threads t : Nat) : Nat :=
  if t = num_threads - 1 then height else (t + 1) * (height / num_threads)

/-- Entry `t` of the `threadArgs` array that `compute_image` fills in. -/
def thread_arg {D : Type} (img : imgRawImage) (xmin xmax ymin ymax : D) (max : Int)
    (num_threads t : Nat) : ThreadArgs D :=
  { xmin := xmin, xmax := xmax, ymin := ymin, ymax := ymax, max := max,
    start_row := start_row img.height num_threads t,
    end_row := end_row img.height num_threads t }

/-- The creation loop of `compute_image`: the `threadArgs` array, entry `t` for worker `t`. -/
def thread_args {D : Type} (img : imgRawImage) (xmin xmax ymin ymax : D) (max : Int)
    (num_threads : Nat) : List (ThreadArgs D) :=
  (List.range num_threads).map (thread_arg img xmin xmax ymin ymax max num_threads)

/-- The workers of `order` run `compute_region` on the shared raster one after another. -/
def run_threads {D : Type} (A : DoubleOps D) (order : List (ThreadArgs D))
    (img : imgRawImage) : imgRawImage :=
  order.foldl (fun im a => compute_region A a im) img

/-- `compute_image` with every worker started, the workers taken in creation order. -/
def compute_image {D : Type} (A : DoubleOps D) (img : imgRawImage)
    (xmin xmax ymin ymax : D) (max : Int) (num_threads : Nat) : imgRawImage :=
  run_threads A (thread_args img xmin xmax ymin ymax max num_threads) img

/-- `compute_image` when `pthread_create` may fail: `created t` tells whether worker `t`
was started.  The result of `pthread_create` is discarded and `threads` is an
uninitialised array, so after a failed creation `threads[t]` holds no thread handle; the
join loop calls `pthread_join` on every entry all the same, and on such an entry the call
has undefined behaviour (typically the process is killed inside `pthread_join`).  The
result is `none` in that case, and the computed raster when every worker was started. -/
def compute_image_created {D : Type} (A : DoubleOps D) (img : imgRawImage)
    (xmin xmax ymin ymax : D) (max : Int) (num_threads : Nat) (created : Nat → Bool) :
    Option imgRawImage :=
  let started := ((List.range num_threads).filter created).map
    (thread_arg img xmin xmax ymin ymax max num_threads)
  let img := run_threads A started img
  if (List.range num_threads).all created then some img else none

/-- The configuration `main` of `mandel.c` ends up with after the option loop:
`threads` is the argument of `-t` when given, `help` tells whether `-h` was given. -/
structure Options (D : Type) where
  xcenter : D
  ycenter : D
  xscale : D
  image_width : Nat
  image_height : Nat
  max : Int
  threads : Option Int
  help : Bool

/-- How a run of `mandel` ends: it exits with a status, having stored a raster or not,
or its behaviour is undefined. -/
inductive Outcome where
  /-- `exit(status)` or `return status` from `main`; `stored` is the raster handed to
  `storeJpegImageFile`, if that call was reached -/
  | exit (status : Int) (stored : Option imgRawImage)
  /-- undefined behaviour was reached -/
  | undefined
deriving DecidableEq, Repr

/-- `main` of `mandel.c` after option parsing. -/
def mandel_main {D : Type} (A : DoubleOps D) (o : Options D) (created : Nat → Bool) :
    Outcome :=
  if o.help then Outcome.exit 1 none
  else if (o.threads.getD 1) < 1 ∨ (o.threads.getD 1) > 20 then Outcome.exit 1 none
  else
    let num_threads := (o.threads.getD 1).toNat
    let yscale := A.mul (A.div o.xscale (A.ofInt o.image_width)) (A.ofInt o.image_height)
    let img := blackImage o.image_width o.image_height
    match compute_image_created A img
      (A.sub o.xcenter (A.div o.xscale (A.ofInt 2)))
      (A.add o.xcenter (A.div o.xscale (A.ofInt 2)))
      (A.sub o.ycenter (A.div yscale (A.ofInt 2)))
      (A.add o.ycenter (A.div yscale (A.ofInt 2)))
      o.max num_threads created with
    | some img => Outcome.exit 0 (some img)
    | none => Outcome.undefined

/-- The colour `compute_region` writes at pixel `(i, j)` of a `width × height` raster. -/
def pixel_color {D : Type} (A : DoubleOps D) (threadArgs : ThreadArgs D)
    (width height i j : Nat) : Int :=
  iteration_to_color A
    (iterations_at_point A
      (A.add threadArgs.xmin
        (A.div (A.mul (A.ofInt (i : Int)) (A.sub threadArgs.xmax threadArgs.xmin))
          (A.ofInt (width : Int))))
      (A.add threadArgs.ymin
        (A.div (A.mul (A.ofInt (j : Int)) (A.sub threadArgs.ymax threadArgs.ymin))
          (A.ofInt (height : Int))))
      threadArgs.max)
    threadArgs.max

/-- The options `-x 0.5 -y 1 -s 1 -W 1 -H 2 -m 1 -t 2`. -/
def twoRowOptions : Options ℚ :=
  { xcenter := 1 / 2, ycenter := 1, xscale := 1, image_width := 1, image_height := 2,
    max := 1, threads := some 2, help := false }

/-! ## `mandelmovie.c`: the frame sequence -/

/-- `TOTAL_IMAGES` -/
def TOTAL_IMAGES : Nat := 50

/-- The arguments of one `generate_frame` call (the output file name, which is
`mandel%02d.jpg` of `frame`, is left out). -/
structure FrameCall (D : Type) where
  frame : Nat
  x : D
  y : D
  scale : D

/-- The `for` loop of `main` with `remaining` iterations left: the `generate_frame` calls
it dispatches, in order, every `fork` succeeding. -/
def frame_loop {D : Type} (A : DoubleOps D) : Nat → Nat → D → D → D → List (FrameCall D)
  | 0, _, _, _, _ => []
  | remaining + 1, frame, xcenter, ycenter, scale =>
    { frame := frame, x := xcenter, y := ycenter, scale := scale } ::
      (let scale := A.mul scale (A.lit 0.9)
       let xcenter := A.add xcenter (A.mul scale (A.lit 0.05))
       let ycenter := A.add ycenter (A.mul scale (A.lit 0.05))
       frame_loop A remaining (frame + 1) xcenter ycenter scale)

/-- The frames `main` of `mandelmovie.c` dispatches, starting from
`xcenter = 0.0, ycenter = 0.0, scale = 4.0`. -/
def movie_frames {D : Type} (A : DoubleOps D) : List (FrameCall D) :=
  frame_loop A TOTAL_IMAGES 0 (A.lit 0.0) (A.lit 0.0) (A.lit 4.0)

/-! ## `mandelmovie.c`: the semaphore-gated scheduler -/

/-- State of the parent and its children, as far as the semaphore protocol goes. -/
structure Sched where
  /-- value of the semaphore -/
  sem : Nat
  /-- the dispatch loop's counter `frame` -/
  frame : Nat
  /-- the parent has returned from `sem_wait` and has not called `fork` yet -/
  holding : Bool
  /-- children that were forked and have not called `sem_post` yet (the active jobs) -/
  active : Nat
  /-- children that have called `sem_post` and have not exited yet -/
  posted : Nat
  /-- children that have exited and have not been reaped -/
  zombies : Nat
  /-- children created by `fork` so far -/
  dispatched : Nat
  /-- the reaping loop's counter `i` -/
  i : Nat
  /-- children collected by `wait` -/
  reaped : Nat
  /-- `main` has returned in the parent -/
  returned : Bool
deriving DecidableEq, Repr

/-- The atomic steps of the parent and of the children. -/
inductive Action where
  /-- parent: `sem_wait(sem)` returns -/
  | sem_wait
  /-- parent: `fork()` creates a child; the parent updates the parameters and `frame++` -/
  | fork
  /-- parent: `fork()` returns -1; the parent goes on to the update and `frame++` -/
  | fork_fail
  /-- a child: `generate_frame` is done and `sem_post(sem)` is called -/
  | child_post
  /-- a child: `return 0` -/
  | child_exit
  /-- parent: `wait(NULL)` returns in the reaping loop; `i++` -/
  | wait
  /-- parent: the reaping loop is over, `main` returns -/
  | ret
deriving DecidableEq, Repr

/-- Value of the semaphore that `sem_open(SEM_NAME, O_CREAT, 0666, value)` returns.
`existing` is the value of the semaphore named `/mandel_sem` when one exists already:
`O_CREAT` without `O_EXCL` then opens that semaphore and ignores `value`.  The name is
unlinked only at the end of `main`, so a semaphore is left behind by a run that was
interrupted and is shared with a run that is still going on. -/
def sem_open (existing : Option Nat) (value : Nat) : Nat :=
  match existing with
  | some v => v
  | none => value

/-- State after `sem_open(SEM_NAME, O_CREAT, 0666, num_processes)` has succeeded. -/
def Sched.init (existing : Option Nat) (num_processes : Nat) : Sched :=
  { sem := sem_open existing num_processes, frame := 0, holding := false, active := 0,
    posted := 0, zombies := 0, dispatched := 0, i := 0, reaped := 0, returned := false }

/-- One step of the scheduler; `none` when the action is not enabled (a blocked
`sem_wait` or `wait`, or a statement that is not next in program order). -/
def Sched.step (num_processes : Nat) (a : Action) (s : Sched) : Option Sched :=
  match a with
  | .sem_wait =>
    if s.returned = false ∧ s.frame < TOTAL_IMAGES ∧ s.holding = false ∧ 0 < s.sem then
      some { s with sem := s.sem - 1, holding := true }
    else none
  | .fork =>
    if s.holding = true then
      some { s with holding := false, active := s.active + 1,
                    dispatched := s.dispatched + 1, frame := s.frame + 1 }
    else none
  | .fork_fail =>
    if s.holding = true then some { s with holding := false, frame := s.frame + 1 }
    else none
  | .child_post =>
    if 0 < s.active then
      some { s with active := s.active - 1, posted := s.posted + 1, sem := s.sem + 1 }
    else none
  | .child_exit =>
    if 0 < s.posted then some { s with posted := s.posted - 1, zombies := s.zombies + 1 }
    else none
  | .wait =>
    if s.returned = false ∧ s.holding = false ∧ s.frame = TOTAL_IMAGES ∧
        s.i < num_processes then
      if 0 < s.zombies then
        some { s with zombies := s.zombies - 1, reaped := s.reaped + 1, i := s.i + 1 }
      else if s.active + s.posted = 0 then some { s with i := s.i + 1 }
      else none
    else none
  | .ret =>
    if s.returned = false ∧ s.holding = false ∧ s.frame = TOTAL_IMAGES ∧
        s.i = num_processes then
      some { s with returned := true }
    else none

/-- States the scheduler can be in after finitely many steps, started with
`num_processes` while the named semaphore is in the state `existing`. -/
inductive Sched.Reachable (existing : Option Nat) (num_processes : Nat) : Sched → Prop where
  | init : Sched.Reachable existing num_processes (Sched.init existing num_processes)
  | step {s t : Sched} (a : Action) :
      Sched.Reachable existing num_processes s → Sched.step num_processes a s = some t →
      Sched.Reachable existing num_processes t

/-- Run a schedule (a list of actions) from a state. -/
def Sched.run (num_processes : Nat) : List Action → Sched → Option Sched
  | [], s => some s
  | a :: rest, s =>
    match Sched.step num_processes a s with
    | some t => Sched.run num_processes rest t
    | none => none

/-- Three rounds of `sem_wait` and `fork`, no child finishing in between. -/
def threeDispatches : List Action :=
  [Action.sem_wait, Action.fork, Action.sem_wait, Action.fork, Action.sem_wait, Action.fork]

/-- A schedule for `-p 1`: frames 0 to 48 are each run to completion, frame 49 is
dispatched, the one `wait` of the reaping loop collects an earlier child, `main` returns. -/
def earlyReturnSchedule : List Action :=
  (List.replicate 49 [Action.sem_wait, Action.fork, Action.child_post,
    Action.child_exit]).flatten ++ [Action.sem_wait, Action.fork, Action.wait, Action.ret]

/-- The invariant of the protocol, for a semaphore opened with value `v`: slots are
conserved or lost, never created; the reaping loop collects at most one child per pass
and makes at most `n` passes. -/
def Sched.Inv (v n : Nat) (s : Sched) : Prop :=
  s.sem + s.active + (if s.holding then 1 else 0) ≤ v ∧
  s.reaped ≤ s.i ∧ s.i ≤ n ∧
  s.dispatched ≤ s.frame ∧
  s.frame + (if s.holding then 1 else 0) ≤ TOTAL_IMAGES ∧
  s.reaped + s.zombies + s.posted + s.active = s.dispatched

/-! ### Lemmas on the escape loop -/

theorem iterations_loop_spec {D : Type} (A : DoubleOps D) (x0 y0 : D) (max : Int) :
    ∀ (fuel n : Nat), (n : Int) ≤ max → (max - n).toNat ≤ fuel →
      (n : Int) ≤ iterations_loop A x0 y0 max fuel (orbit A x0 y0 n).1 (orbit A x0 y0 n).2 n ∧
      iterations_loop A x0 y0 max fuel (orbit A x0 y0 n).1 (orbit A x0 y0 n).2 n ≤ max ∧
      (∀ k : Nat, n ≤ k →
        (k : Int) < iterations_loop A x0 y0 max fuel (orbit A x0 y0 n).1 (orbit A x0 y0 n).2 n →
        inside A (orbit A x0 y0 k) = true) ∧
      (iterations_loop A x0 y0 max fuel (orbit A x0 y0 n).1 (orbit A x0 y0 n).2 n < max →
        inside A (orbit A x0 y0
          (iterations_loop A x0 y0 max fuel (orbit A x0 y0 n).1 (orbit A x0 y0 n).2 n).toNat)
          = false) := by
  intro fuel
  induction fuel with
  | zero =>
    intro n hn hf
    have hmn : max = n := by omega
    simp only [iterations_loop]
    refine ⟨le_refl _, hn, ?_, ?_⟩
    · intro k hk hlt; omega
    · intro hlt; omega
  | succ fuel ih =>
    intro n hn hf
    by_cases hc : (inside A (orbit A x0 y0 n) && decide ((n : Int) < max)) = true
    · have hstep : iterations_loop A x0 y0 max (fuel + 1) (orbit A x0 y0 n).1
            (orbit A x0 y0 n).2 n
          = iterations_loop A x0 y0 max fuel (orbit A x0 y0 (n + 1)).1
            (orbit A x0 y0 (n + 1)).2 ((n + 1 : Nat) : Int) := by
        have hc2 := hc
        unfold inside at hc2
        rw [iterations_loop, if_pos hc2]
        simp only [orbit, Nat.cast_add, Nat.cast_one]
      rw [hstep]
      simp only [Bool.and_eq_true, decide_eq_true_eq] at hc
      obtain ⟨hin, hlt⟩ := hc
      obtain ⟨h1, h2, h3, h4⟩ := ih (n + 1) (by push_cast; omega) (by push_cast; omega)
      refine ⟨by omega, h2, ?_, h4⟩
      intro k hk hkr
      by_cases hkn : k = n
      · subst hkn; exact hin
      · exact h3 k (by omega) hkr
    · have hstep : iterations_loop A x0 y0 max (fuel + 1) (orbit A x0 y0 n).1
            (orbit A x0 y0 n).2 n = n := by
        have hc2 := hc
        unfold inside at hc2
        rw [iterations_loop, if_neg hc2]
      rw [hstep]
      refine ⟨le_refl _, hn, ?_, ?_⟩
      · intro k hk hlt; omega
      · intro hlt
        simp only [Bool.and_eq_true, decide_eq_true_eq, not_and] at hc
        simp only [Int.toNat_ofNat]
        by_contra hne
        exact hc (by simpa using hne) hlt

/-- Fuel beyond `max - iter` passes is never used. -/
theorem iterations_loop_fuel {D : Type} (A : DoubleOps D) (x0 y0 : D) (max : Int) :
    ∀ (fuel : Nat) (x y : D) (iter : Int), (max - iter).toNat ≤ fuel →
      iterations_loop A x0 y0 max fuel x y iter
        = iterations_loop A x0 y0 max (max - iter).toNat x y iter := by
  intro fuel
  induction fuel with
  | zero =>
    intro x y iter h
    have : (max - iter).toNat = 0 := by omega
    rw [this]
  | succ fuel ih =>
    intro x y iter h
    by_cases hlt : iter < max
    · obtain ⟨m, hm⟩ : ∃ m, (max - iter).toNat = m + 1 := ⟨(max - iter).toNat - 1, by omega⟩
      rw [hm]
      simp only [iterations_loop]
      split
      · have e : (max - (iter + 1)).toNat = m := by omega
        rw [ih _ _ _ (by omega), e]
      · rfl
    · have : (max - iter).toNat = 0 := by omega
      rw [this]
      simp [iterations_loop, hlt]

theorem iterations_at_point_spec {D : Type} (A : DoubleOps D) (x0 y0 : D) (max : Int)
    (hmax : 0 ≤ max) :
    0 ≤ iterations_at_point A x0 y0 max ∧ iterations_at_point A x0 y0 max ≤ max ∧
    (∀ k : Nat, (k : Int) < iterations_at_point A x0 y0 max → ¬ Escaped A x0 y0 k) ∧
    (iterations_at_point A x0 y0 max < max →
      Escaped A x0 y0 (iterations_at_point A x0 y0 max).toNat) := by
  have h := iterations_loop_spec A x0 y0 max max.toNat 0 (by simpa using hmax) (by simp)
  simp only [orbit, Nat.cast_zero] at h
  obtain ⟨h1, h2, h3, h4⟩ := h
  refine ⟨h1, h2, ?_, h4⟩
  intro k hk
  unfold Escaped
  rw [h3 k (Nat.zero_le _) hk]
  simp
theorem iterations_loop_origin {D : Type} (A : DoubleOps D) (hz : ZeroLaws A) (max : Int) :
    ∀ (fuel : Nat) (iter : Int), iter + fuel ≤ max →
      iterations_loop A (A.ofInt 0) (A.ofInt 0) max fuel (A.ofInt 0) (A.ofInt 0) iter
        = iter + fuel := by
  intro fuel
  induction fuel with
  | zero => intro iter _; simp [iterations_loop]
  | succ fuel ih =>
    intro iter h
    have hlt : iter < max := by omega
    simp only [iterations_loop, hz.mul_zero_zero, hz.sub_zero_zero, hz.add_zero_zero,
      hz.two_mul_zero, hz.zero_le_four, hlt, decide_True, Bool.and_self, if_true]
    rw [ih (iter + 1) (by push_cast at h; omega)]
    push_cast
    ring

theorem exactOps_zeroLaws : ZeroLaws exactOps := by
  constructor <;> simp [exactOps]

theorem iterations_at_point_neg {D : Type} (A : DoubleOps D) (x0 y0 : D) (max : Int)
    (h : max < 0) : iterations_at_point A x0 y0 max = 0 := by
  have : max.toNat = 0 := by omega
  simp [iterations_at_point, this, iterations_loop]
/-! ### Lemmas on the colour mapping -/

theorem exact_toInt_neg (q : ℚ) : exactOps.toInt (-q) = - exactOps.toInt q := by
  simp [exactOps, Int.neg_tdiv]

theorem exact_toInt_div_nonneg (a b : Int) (ha : 0 ≤ a) (hb : 0 < b) :
    exactOps.toInt (exactOps.div (exactOps.ofInt a) (exactOps.ofInt b)) = a / b := by
  have hq : (0 : ℚ) ≤ (a : ℚ) / (b : ℚ) := by positivity
  have hnum : 0 ≤ ((a : ℚ) / (b : ℚ)).num := Rat.num_nonneg.mpr hq
  show Int.tdiv ((a : ℚ) / (b : ℚ)).num (((a : ℚ) / (b : ℚ)).den : Int) = a / b
  rw [Int.tdiv_eq_ediv hnum (by positivity), ← Rat.floor_def]
  obtain ⟨n, rfl⟩ := Int.eq_ofNat_of_zero_le (le_of_lt hb)
  exact Rat.floor_intCast_div_natCast a n

/-- In exact arithmetic, dividing two converted integers and truncating is the truncated
integer quotient. -/
theorem exact_toInt_div (a b : Int) (hb : 0 < b) :
    exactOps.toInt (exactOps.div (exactOps.ofInt a) (exactOps.ofInt b)) = Int.tdiv a b := by
  rcases le_or_lt 0 a with ha | ha
  · rw [exact_toInt_div_nonneg a b ha hb, Int.tdiv_eq_ediv ha (le_of_lt hb)]
  · have h := exact_toInt_div_nonneg (-a) b (by omega) hb
    have e : exactOps.div (exactOps.ofInt a) (exactOps.ofInt b)
        = - exactOps.div (exactOps.ofInt (-a)) (exactOps.ofInt b) := by
      simp [exactOps, neg_div]
    rw [e, exact_toInt_neg, h, ← Int.tdiv_eq_ediv (by omega) (le_of_lt hb), Int.neg_tdiv]
    simp

theorem iteration_to_color_exact (iters max : Int) (hmax : 0 < max) :
    iteration_to_color exactOps iters max = Int.tdiv (wrap32 (0xFFFFFF * iters)) max :=
  exact_toInt_div _ _ hmax

/-- While the product `0xFFFFFF * iters` fits an `int` (`0 ≤ iters ≤ 128`), the colour is
`floor(0xFFFFFF * iters / max)`. -/
theorem iteration_to_color_no_overflow (iters max : Int) (h0 : 0 ≤ iters)
    (h128 : iters ≤ 128) (hmax : 0 < max) :
    iteration_to_color exactOps iters max = 0xFFFFFF * iters / max := by
  rw [iteration_to_color_exact iters max hmax]
  have hw : wrap32 (0xFFFFFF * iters) = 0xFFFFFF * iters := by
    unfold wrap32
    omega
  rw [hw, Int.tdiv_eq_ediv (by omega) (le_of_lt hmax)]

/-! ### Lemmas on the row partition -/

theorem end_row_le (height N t : Nat) (ht : t < N) : end_row height N t ≤ height := by
  unfold end_row
  split
  · exact le_refl _
  · have h1 : t + 1 ≤ N := ht
    calc (t + 1) * (height / N) ≤ N * (height / N) := Nat.mul_le_mul_right _ h1
      _ ≤ height := Nat.mul_div_le height N

theorem end_row_eq_start_succ (height N t : Nat) (ht : t + 1 < N) :
    end_row height N t = start_row height N (t + 1) := by
  unfold end_row start_row
  rw [if_neg (by omega)]

theorem start_row_mono (height N : Nat) {s t : Nat} (h : s ≤ t) :
    start_row height N s ≤ start_row height N t :=
  Nat.mul_le_mul_right _ h

theorem end_row_le_start (height N : Nat) {s t : Nat} (hst : s < t) (ht : t < N) :
    end_row height N s ≤ start_row height N t := by
  rw [end_row_eq_start_succ height N s (by omega)]
  exact start_row_mono height N hst

theorem rows_disjoint (height N : Nat) {s t : Nat} (hs : s < N) (ht : t < N) (j : Nat)
    (h1 : start_row height N s ≤ j ∧ j < end_row height N s)
    (h2 : start_row height N t ≤ j ∧ j < end_row height N t) : s = t := by
  rcases Nat.lt_trichotomy s t with h | h | h
  · have := end_row_le_start height N h ht
    omega
  · exact h
  · have := end_row_le_start height N h hs
    omega

theorem rows_cover (height N : Nat) (hN : 1 ≤ N) (j : Nat) (hj : j < height) :
    ∃ t, t < N ∧ start_row height N t ≤ j ∧ j < end_row height N t := by
  by_cases hlast : start_row height N (N - 1) ≤ j
  · refine ⟨N - 1, by omega, hlast, ?_⟩
    unfold end_row
    rw [if_pos rfl]
    exact hj
  · have hq : 0 < height / N := by
      by_contra h0
      have h00 : height / N = 0 := Nat.eq_zero_of_not_pos h0
      simp [start_row, h00] at hlast
    have hlt : j / (height / N) < N - 1 := by
      rw [Nat.div_lt_iff_lt_mul hq]
      unfold start_row at hlast
      omega
    refine ⟨j / (height / N), by omega, ?_, ?_⟩
    · unfold start_row
      exact Nat.div_mul_le_self j (height / N)
    · unfold end_row
      rw [if_neg (by omega)]
      have := Nat.div_add_mod j (height / N)
      have := Nat.mod_lt j hq
      rw [Nat.add_mul, Nat.mul_comm]
      omega

/-! ### Lemmas on the computed raster -/

theorem getElem?_set_map (l : List Int) (p k : Nat) (c : Int) :
    (l.set p c)[k]? = if p = k then l[k]?.map (fun _ => c) else l[k]? := by
  rw [List.getElem?_set]
  by_cases hpk : p = k
  · subst hpk
    by_cases hp : p < l.length
    · simp [hp, List.getElem?_eq_getElem hp]
    · simp [hp, List.getElem?_eq_none (Nat.le_of_not_lt hp)]
  · simp [hpk]

theorem row_fold_getElem? (c : Nat → Int) (base : Nat) :
    ∀ (n : Nat) (d : List Int) (k : Nat),
      ((List.range n).foldl (fun d i => d.set (base + i) (c i)) d)[k]?
        = if base ≤ k ∧ k < base + n then d[k]?.map (fun _ => c (k - base)) else d[k]? := by
  intro n
  induction n with
  | zero =>
    intro d k
    have h0 : ¬ (base ≤ k ∧ k < base + 0) := by omega
    rw [if_neg h0]
    rfl
  | succ n ih =>
    intro d k
    rw [List.range_succ, List.foldl_append]
    simp only [List.foldl_cons, List.foldl_nil]
    rw [getElem?_set_map, ih]
    by_cases hk : base + n = k
    · subst hk
      have h1 : ¬ (base ≤ base + n ∧ base + n < base + n) := by omega
      have h2 : base ≤ base + n ∧ base + n < base + (n + 1) := by omega
      simp [h1, h2]
    · by_cases hin : base ≤ k ∧ k < base + n
      · have h2 : base ≤ k ∧ k < base + (n + 1) := by omega
        simp [hk, hin, h2]
      · have h2 : ¬ (base ≤ k ∧ k < base + (n + 1)) := by omega
        simp [hk, hin, h2]

theorem row_index_iff (w j k : Nat) : (j * w ≤ k ∧ k < j * w + w) ↔ (k / w = j ∧ 0 < w) := by
  constructor
  · rintro ⟨h1, h2⟩
    have hw : 0 < w := by omega
    refine ⟨Nat.div_eq_of_lt_le h1 (by rw [Nat.add_mul]; omega), hw⟩
  · rintro ⟨rfl, hw⟩
    have h1 := Nat.div_add_mod k w
    have h2 := Nat.mod_lt k hw
    rw [Nat.mul_comm]
    omega

theorem row_index_sub (w j k : Nat) (h : k / w = j) : k - j * w = k % w := by
  have h1 := Nat.div_add_mod k w
  subst h
  rw [Nat.mul_comm]
  omega

theorem inner_fold_image (col : Nat → Nat → Nat → Int) (j : Nat) :
    ∀ (n : Nat) (img : imgRawImage),
      (List.range n).foldl (fun im (i : Nat) => setPixelCOLOR im i j (col im.height i j)) img
        = imgRawImage.mk img.width img.height ((List.range n).foldl
              (fun d i => d.set (j * img.width + i) (col img.height i j)) img.data) := by
  intro n
  induction n with
  | zero => intro img; rfl
  | succ n ih =>
    intro img
    rw [List.range_succ, List.foldl_append, List.foldl_append, ih]
    rfl

theorem outer_fold_image (col : Nat → Nat → Nat → Int) (w s : Nat) :
    ∀ (n : Nat) (img : imgRawImage), img.width = w →
      ((List.range' s n).foldl (fun im (j : Nat) =>
          (List.range w).foldl
            (fun im (i : Nat) => setPixelCOLOR im i j (col im.height i j)) im) img).width = w ∧
      ((List.range' s n).foldl (fun im (j : Nat) =>
          (List.range w).foldl
            (fun im (i : Nat) => setPixelCOLOR im i j (col im.height i j)) im) img).height
        = img.height ∧
      ∀ k,
        ((List.range' s n).foldl (fun im (j : Nat) =>
          (List.range w).foldl
            (fun im (i : Nat) => setPixelCOLOR im i j (col im.height i j)) im) img).data[k]?
        = if (s ≤ k / w ∧ k / w < s + n) ∧ 0 < w
          then img.data[k]?.map (fun _ => col img.height (k % w) (k / w))
          else img.data[k]? := by
  intro n
  induction n with
  | zero =>
    intro img hw
    refine ⟨hw, rfl, ?_⟩
    intro k
    have h0 : ¬ ((s ≤ k / w ∧ k / w < s + 0) ∧ 0 < w) := by omega
    rw [if_neg h0]
    rfl
  | succ n ih =>
    intro img hw
    obtain ⟨h1, h2, h3⟩ := ih img hw
    rw [List.range'_concat, List.foldl_append]
    simp only [List.foldl_cons, List.foldl_nil]
    rw [inner_fold_image]
    refine ⟨h1, h2, ?_⟩
    intro k
    simp only [h1, h2, one_mul]
    rw [row_fold_getElem?, h3]
    by_cases hrow : k / w = s + n ∧ 0 < w
    · have e1 : (s + n) * w ≤ k ∧ k < (s + n) * w + w := (row_index_iff w (s + n) k).mpr hrow
      have e2 : ¬ ((s ≤ k / w ∧ k / w < s + n) ∧ 0 < w) := by omega
      have e3 : (s ≤ k / w ∧ k / w < s + (n + 1)) ∧ 0 < w := by omega
      rw [if_pos e1, if_neg e2, if_pos e3, row_index_sub w (s + n) k hrow.1, hrow.1]
    · have e1 : ¬ ((s + n) * w ≤ k ∧ k < (s + n) * w + w) :=
        fun h => hrow ((row_index_iff w (s + n) k).mp h)
      rw [if_neg e1]
      by_cases hin : (s ≤ k / w ∧ k / w < s + n) ∧ 0 < w
      · have e3 : (s ≤ k / w ∧ k / w < s + (n + 1)) ∧ 0 < w := by omega
        rw [if_pos hin, if_pos e3]
      · have e3 : ¬ ((s ≤ k / w ∧ k / w < s + (n + 1)) ∧ 0 < w) := by omega
        rw [if_neg hin, if_neg e3]

theorem compute_region_spec {D : Type} (A : DoubleOps D) (a : ThreadArgs D)
    (img : imgRawImage) :
    (compute_region A a img).width = img.width ∧
    (compute_region A a img).height = img.height ∧
    ∀ k, (compute_region A a img).data[k]?
      = if (a.start_row ≤ k / img.width ∧ k / img.width < a.end_row) ∧ 0 < img.width
        then img.data[k]?.map
          (fun _ => pixel_color A a img.width img.height (k % img.width) (k / img.width))
        else img.data[k]? := by
  have h := outer_fold_image (fun h i j => pixel_color A a img.width h i j) img.width
    a.start_row (a.end_row - a.start_row) img rfl
  obtain ⟨h1, h2, h3⟩ := h
  refine ⟨h1, h2, ?_⟩
  intro k
  have e := h3 k
  by_cases hc : (a.start_row ≤ k / img.width ∧ k / img.width < a.end_row) ∧ 0 < img.width
  · have hc2 : (a.start_row ≤ k / img.width ∧
        k / img.width < a.start_row + (a.end_row - a.start_row)) ∧ 0 < img.width := by omega
    rw [if_pos hc]
    rw [if_pos hc2] at e
    exact e
  · have hc2 : ¬ ((a.start_row ≤ k / img.width ∧
        k / img.width < a.start_row + (a.end_row - a.start_row)) ∧ 0 < img.width) := by omega
    rw [if_neg hc]
    rw [if_neg hc2] at e
    exact e

theorem run_threads_spec {D : Type} (A : DoubleOps D) (col : Nat → Nat → Int) :
    ∀ (order : List (ThreadArgs D)) (img : imgRawImage),
      (∀ a ∈ order, ∀ i j, pixel_color A a img.width img.height i j = col i j) →
      (run_threads A order img).width = img.width ∧
      (run_threads A order img).height = img.height ∧
      ∀ k,
        (((∃ a ∈ order, a.start_row ≤ k / img.width ∧ k / img.width < a.end_row) ∧
            0 < img.width) →
          (run_threads A order img).data[k]?
            = img.data[k]?.map (fun _ => col (k % img.width) (k / img.width))) ∧
        (¬ ((∃ a ∈ order, a.start_row ≤ k / img.width ∧ k / img.width < a.end_row) ∧
            0 < img.width) →
          (run_threads A order img).data[k]? = img.data[k]?) := by
  intro order
  induction order with
  | nil =>
    intro img _
    refine ⟨rfl, rfl, ?_⟩
    intro k
    refine ⟨?_, fun _ => rfl⟩
    rintro ⟨⟨a, ha, _⟩, _⟩
    cases ha
  | cons a rest ih =>
    intro img hcol
    obtain ⟨r1, r2, r3⟩ := compute_region_spec A a img
    have hrest : ∀ b ∈ rest, ∀ i j,
        pixel_color A b (compute_region A a img).width (compute_region A a img).height i j
          = col i j := by
      intro b hb i j
      rw [r1, r2]
      exact hcol b (List.mem_cons_of_mem a hb) i j
    obtain ⟨h1, h2, h3⟩ := ih (compute_region A a img) hrest
    have hrun : run_threads A (a :: rest) img = run_threads A rest (compute_region A a img) :=
      rfl
    rw [hrun]
    refine ⟨h1.trans r1, h2.trans r2, ?_⟩
    intro k
    obtain ⟨g1, g2⟩ := h3 k
    rw [r1] at g1 g2
    have ha := r3 k
    by_cases hrestc : (∃ b ∈ rest, b.start_row ≤ k / img.width ∧ k / img.width < b.end_row) ∧
        0 < img.width
    · have hall : (∃ b ∈ a :: rest, b.start_row ≤ k / img.width ∧ k / img.width < b.end_row) ∧
          0 < img.width := by
        obtain ⟨⟨b, hb, hbr⟩, hw⟩ := hrestc
        exact ⟨⟨b, List.mem_cons_of_mem a hb, hbr⟩, hw⟩
      refine ⟨fun _ => ?_, fun hn => absurd hall hn⟩
      rw [g1 hrestc, ha]
      by_cases hac : (a.start_row ≤ k / img.width ∧ k / img.width < a.end_row) ∧ 0 < img.width
      · rw [if_pos hac, Option.map_map]
        rfl
      · rw [if_neg hac]
    · by_cases hac : (a.start_row ≤ k / img.width ∧ k / img.width < a.end_row) ∧ 0 < img.width
      · have hall : (∃ b ∈ a :: rest,
            b.start_row ≤ k / img.width ∧ k / img.width < b.end_row) ∧ 0 < img.width :=
          ⟨⟨a, List.mem_cons_self a rest, hac.1⟩, hac.2⟩
        refine ⟨fun _ => ?_, fun hn => absurd hall hn⟩
        rw [g2 hrestc, ha, if_pos hac]
        congr 1
        funext _
        exact hcol a (List.mem_cons_self a rest) _ _
      · have hnone : ¬ ((∃ b ∈ a :: rest,
            b.start_row ≤ k / img.width ∧ k / img.width < b.end_row) ∧ 0 < img.width) := by
          rintro ⟨⟨b, hb, hbr⟩, hw⟩
          rcases List.mem_cons.mp hb with rfl | hb2
          · exact hac ⟨hbr, hw⟩
          · exact hrestc ⟨⟨b, hb2, hbr⟩, hw⟩
        refine ⟨fun h => absurd h hnone, fun _ => ?_⟩
        rw [g2 hrestc, ha, if_neg hac]

theorem thread_args_cover {D : Type} (img : imgRawImage) (xmin xmax ymin ymax : D)
    (max : Int) (N : Nat) (hN : 1 ≤ N) (r : Nat) :
    (∃ a ∈ thread_args img xmin xmax ymin ymax max N, a.start_row ≤ r ∧ r < a.end_row)
      ↔ r < img.height := by
  constructor
  · rintro ⟨a, ha, h1, h2⟩
    obtain ⟨t, ht, rfl⟩ := List.mem_map.mp ha
    exact lt_of_lt_of_le h2 (end_row_le img.height N t (List.mem_range.mp ht))
  · intro hr
    obtain ⟨t, ht, h1, h2⟩ := rows_cover img.height N hN r hr
    exact ⟨_, List.mem_map.mpr ⟨t, List.mem_range.mpr ht, rfl⟩, h1, h2⟩

theorem imgRawImage_ext (p q : imgRawImage) (hw : p.width = q.width)
    (hh : p.height = q.height) (hd : ∀ k : Nat, p.data[k]? = q.data[k]?) : p = q := by
  cases p
  cases q
  simp only at hw hh
  subst hw
  subst hh
  congr 1
  exact List.ext_getElem? hd

/-- Every pixel of every row below `height` is painted, whatever the order of the bands. -/
theorem run_threads_full {D : Type} (A : DoubleOps D) (img : imgRawImage)
    (xmin xmax ymin ymax : D) (max : Int) (N : Nat) (hN : 1 ≤ N)
    (order : List (ThreadArgs D))
    (hperm : order.Perm (thread_args img xmin xmax ymin ymax max N)) :
    (run_threads A order img).width = img.width ∧
    (run_threads A order img).height = img.height ∧
    ∀ k, (run_threads A order img).data[k]?
      = if k / img.width < img.height ∧ 0 < img.width
        then img.data[k]?.map (fun _ =>
          pixel_color A ⟨xmin, xmax, ymin, ymax, max, 0, 0⟩ img.width img.height
            (k % img.width) (k / img.width))
        else img.data[k]? := by
  have hcol : ∀ a ∈ order, ∀ i j, pixel_color A a img.width img.height i j
      = pixel_color A ⟨xmin, xmax, ymin, ymax, max, 0, 0⟩ img.width img.height i j := by
    intro a ha i j
    obtain ⟨t, _, rfl⟩ := List.mem_map.mp (hperm.mem_iff.mp ha)
    rfl
  obtain ⟨h1, h2, h3⟩ := run_threads_spec A _ order img hcol
  refine ⟨h1, h2, ?_⟩
  intro k
  have hiff : (∃ a ∈ order, a.start_row ≤ k / img.width ∧ k / img.width < a.end_row)
      ↔ k / img.width < img.height := by
    rw [← thread_args_cover img xmin xmax ymin ymax max N hN (k / img.width)]
    constructor
    · rintro ⟨a, ha, h⟩
      exact ⟨a, hperm.mem_iff.mp ha, h⟩
    · rintro ⟨a, ha, h⟩
      exact ⟨a, hperm.mem_iff.mpr ha, h⟩
  by_cases hc : k / img.width < img.height ∧ 0 < img.width
  · rw [if_pos hc]
    exact (h3 k).1 ⟨hiff.mpr hc.1, hc.2⟩
  · rw [if_neg hc]
    exact (h3 k).2 (fun h => hc ⟨hiff.mp h.1, h.2⟩)

/-! ### Lemmas on worker-creation failures -/

/-- With every worker started, `compute_image_created` is `compute_image`. -/
theorem compute_image_created_all {D : Type} (A : DoubleOps D) (img : imgRawImage)
    (xmin xmax ymin ymax : D) (max : Int) (N : Nat) (created : Nat → Bool)
    (hall : ∀ t, t < N → created t = true) :
    compute_image_created A img xmin xmax ymin ymax max N created
      = some (compute_image A img xmin xmax ymin ymax max N) := by
  have hall2 : (List.range N).all created = true := by
    rw [List.all_eq_true]
    intro t ht
    exact hall t (List.mem_range.mp ht)
  have hfilter : (List.range N).filter created = List.range N := by
    rw [List.filter_eq_self]
    intro t ht
    exact hall t (List.mem_range.mp ht)
  unfold compute_image_created
  simp only [hall2, hfilter, if_true]
  rfl

/-- With some worker not started, the join loop reaches undefined behaviour. -/
theorem compute_image_created_failed {D : Type} (A : DoubleOps D) (img : imgRawImage)
    (xmin xmax ymin ymax : D) (max : Int) (N : Nat) (created : Nat → Bool)
    (hfail : ∃ t, t < N ∧ created t = false) :
    compute_image_created A img xmin xmax ymin ymax max N created = none := by
  obtain ⟨t, ht, hc⟩ := hfail
  have hall : ¬ ((List.range N).all created = true) := by
    rw [List.all_eq_true]
    intro h
    have := h t (List.mem_range.mpr ht)
    rw [hc] at this
    cases this
  unfold compute_image_created
  simp only [hall, if_false]
  rfl

theorem mandel_main_failed {D : Type} (A : DoubleOps D) (o : Options D)
    (created : Nat → Bool) (hhelp : o.help = false) (h1 : 1 ≤ o.threads.getD 1)
    (h20 : o.threads.getD 1 ≤ 20)
    (hfail : ∃ t, t < (o.threads.getD 1).toNat ∧ created t = false) :
    mandel_main A o created = Outcome.undefined := by
  unfold mandel_main
  rw [if_neg (by simp [hhelp]), if_neg (by omega)]
  simp only [compute_image_created_failed A _ _ _ _ _ _ _ created hfail]

theorem mandel_main_nonzero {D : Type} (A : DoubleOps D) (o : Options D)
    (created : Nat → Bool) (status : Int) (stored : Option imgRawImage)
    (h : mandel_main A o created = Outcome.exit status stored) (hs : status ≠ 0) :
    o.help = true ∨ o.threads.getD 1 < 1 ∨ 20 < o.threads.getD 1 := by
  by_contra hno
  have hhelp : o.help = false := by
    cases hh : o.help
    · rfl
    · exact absurd (Or.inl hh) hno
  have hrange : ¬ ((o.threads.getD 1) < 1 ∨ (o.threads.getD 1) > 20) := by
    intro hr
    exact hno (Or.inr hr)
  unfold mandel_main at h
  rw [if_neg (by simp [hhelp]), if_neg hrange] at h
  simp only at h
  split at h
  · injection h with h1 _
    exact hs h1.symm
  · cases h

/-! ### Lemmas on the frame sequence -/

theorem frame_loop_length {D : Type} (A : DoubleOps D) :
    ∀ (n frame : Nat) (x y s : D), (frame_loop A n frame x y s).length = n := by
  intro n
  induction n with
  | zero => intro frame x y s; rfl
  | succ n ih =>
    intro frame x y s
    simp only [frame_loop, List.length_cons, ih]

theorem frame_loop_indices {D : Type} (A : DoubleOps D) :
    ∀ (n frame : Nat) (x y s : D),
      (frame_loop A n frame x y s).map (fun f => f.frame) = List.range' frame n := by
  intro n
  induction n with
  | zero => intro frame x y s; rfl
  | succ n ih =>
    intro frame x y s
    simp only [frame_loop, List.map_cons, ih, List.range'_succ]

theorem frame_loop_step {D : Type} (A : DoubleOps D) :
    ∀ (n frame : Nat) (x y s : D) (i : Nat), i + 1 < n →
      ∃ f g : FrameCall D,
        (frame_loop A n frame x y s)[i]? = some f ∧
        (frame_loop A n frame x y s)[i + 1]? = some g ∧
        f.frame = frame + i ∧ g.frame = frame + i + 1 ∧
        g.scale = A.mul f.scale (A.lit 0.9) ∧
        g.x = A.add f.x (A.mul g.scale (A.lit 0.05)) ∧
        g.y = A.add f.y (A.mul g.scale (A.lit 0.05)) := by
  intro n
  induction n with
  | zero => intro frame x y s i hi; omega
  | succ n ih =>
    intro frame x y s i hi
    cases i with
    | zero =>
      obtain ⟨m, rfl⟩ : ∃ m, n = m + 1 := ⟨n - 1, by omega⟩
      exact ⟨⟨frame, x, y, s⟩,
        ⟨frame + 1, A.add x (A.mul (A.mul s (A.lit 0.9)) (A.lit 0.05)),
          A.add y (A.mul (A.mul s (A.lit 0.9)) (A.lit 0.05)), A.mul s (A.lit 0.9)⟩,
        rfl, by simp [frame_loop], rfl, rfl, rfl, rfl, rfl⟩
    | succ i =>
      obtain ⟨f, g, h1, h2, h3, h4, h5, h6, h7⟩ :=
        ih (frame + 1) (A.add x (A.mul (A.mul s (A.lit 0.9)) (A.lit 0.05)))
          (A.add y (A.mul (A.mul s (A.lit 0.9)) (A.lit 0.05))) (A.mul s (A.lit 0.9)) i
          (by omega)
      refine ⟨f, g, ?_, ?_, by omega, by omega, h5, h6, h7⟩
      · simpa [frame_loop] using h1
      · simpa [frame_loop] using h2

/-! ### Lemmas on the scheduler -/

theorem Sched.run_reachable (existing : Option Nat) (n : Nat) :
    ∀ (acts : List Action) (s t : Sched), Sched.Reachable existing n s →
      Sched.run n acts s = some t → Sched.Reachable existing n t := by
  intro acts
  induction acts with
  | nil =>
    intro s t hs h
    simp only [Sched.run, Option.some.injEq] at h
    exact h ▸ hs
  | cons a rest ih =>
    intro s t hs h
    unfold Sched.run at h
    cases hstep : Sched.step n a s with
    | none => rw [hstep] at h; cases h
    | some u =>
      rw [hstep] at h
      exact ih u t (Sched.Reachable.step a hs hstep) h

theorem Sched.inv_step (v n : Nat) (a : Action) (s t : Sched) (hs : Sched.Inv v n s)
    (h : Sched.step n a s = some t) : Sched.Inv v n t := by
  unfold Sched.Inv at hs ⊢
  obtain ⟨h1, h2, h3, h4, h5, h6⟩ := hs
  cases hh : s.holding <;> rw [hh] at h1 h5 <;>
    cases a <;> simp only [Sched.step, hh] at h <;> split_ifs at h <;> cases h <;>
    simp only [Bool.false_eq_true, if_false, if_true] at h1 h5 ⊢ <;>
    refine ⟨?_, ?_, ?_, ?_, ?_, ?_⟩ <;> first | omega | contradiction

theorem Sched.inv_init (existing : Option Nat) (n : Nat) :
    Sched.Inv (sem_open existing n) n (Sched.init existing n) := by
  simp [Sched.Inv, Sched.init]

theorem Sched.inv_reachable (existing : Option Nat) (n : Nat) (s : Sched)
    (h : Sched.Reachable existing n s) : Sched.Inv (sem_open existing n) n s := by
  induction h with
  | init => exact Sched.inv_init existing n
  | step a _ hstep ih => exact Sched.inv_step _ n a _ _ ih hstep

/-! ## The claims -/

set_option maxRecDepth 100000

/-- C1. For every image height and every worker count `N ≥ 1` (so in particular for
`height > 0` and `1 ≤ N ≤ 20`), the row ranges `[start_row, end_row)` that `compute_image`
assigns to workers `t = 0..N-1` are pairwise disjoint, every row `j < height` lies in the
range of exactly one worker, and no range contains a row outside `[0, height)`. -/
theorem compute_image_rows_partition (height N : Nat) (hN : 1 ≤ N) :
    (∀ j, j < height →
      ∃! t, t < N ∧ start_row height N t ≤ j ∧ j < end_row height N t) ∧
    (∀ s t j, s < N → t < N → s ≠ t →
      ¬ ((start_row height N s ≤ j ∧ j < end_row height N s) ∧
         (start_row height N t ≤ j ∧ j < end_row height N t))) ∧
    (∀ t j, t < N → start_row height N t ≤ j → j < end_row height N t → j < height) := by
  refine ⟨?_, ?_, ?_⟩
  · intro j hj
    obtain ⟨t, ht, h1, h2⟩ := rows_cover height N hN j hj
    refine ⟨t, ⟨ht, h1, h2⟩, ?_⟩
    rintro s ⟨hs, g1, g2⟩
    exact rows_disjoint height N hs ht j ⟨g1, g2⟩ ⟨h1, h2⟩
  · rintro s t j hs ht hne ⟨h1, h2⟩
    exact hne (rows_disjoint height N hs ht j h1 h2)
  · intro t j ht _ h2
    exact lt_of_lt_of_le h2 (end_row_le height N t ht)

/-- Witness for C1: 10 rows split among 4 workers, whose bands are
`[0,2)`, `[2,4)`, `[4,6)` and `[6,10)`. -/
theorem compute_image_rows_partition_witness :
    1 ≤ 4 ∧
    (List.range 4).map (fun t => (start_row 10 4 t, end_row 10 4 t))
      = [(0, 2), (2, 4), (4, 6), (6, 10)] ∧
    (∀ j, j < 10 → ∃! t, t < 4 ∧ start_row 10 4 t ≤ j ∧ j < end_row 10 4 t) :=
  ⟨by decide, by decide, (compute_image_rows_partition 10 4 (by decide)).1⟩

/-- C2. For every raster, viewport, `max` and worker count `N ≥ 1` (so in particular
`1 ≤ N ≤ 20`), running `compute_region` over the `N` row bands of `compute_image` in any
order gives a raster identical, pixel for pixel, to the one `compute_image` gives with a
single worker. -/
theorem compute_image_workers_agree {D : Type} (A : DoubleOps D) (img : imgRawImage)
    (xmin xmax ymin ymax : D) (max : Int) (N : Nat) (hN : 1 ≤ N)
    (order : List (ThreadArgs D))
    (hperm : order.Perm (thread_args img xmin xmax ymin ymax max N)) :
    run_threads A order img = compute_image A img xmin xmax ymin ymax max 1 := by
  obtain ⟨a1, a2, a3⟩ := run_threads_full A img xmin xmax ymin ymax max N hN order hperm
  obtain ⟨b1, b2, b3⟩ := run_threads_full A img xmin xmax ymin ymax max 1 (le_refl 1)
    (thread_args img xmin xmax ymin ymax max 1) (List.Perm.refl _)
  apply imgRawImage_ext
  · exact a1.trans b1.symm
  · exact a2.trans b2.symm
  · intro k
    exact (a3 k).trans (b3 k).symm

/-- Witness for C2: a black `2 × 10` raster (height not divisible by 4) and a black
`2 × 8` raster (height divisible by 4), each computed by 4 workers taken in reverse
order, in exact arithmetic. -/
theorem compute_image_workers_agree_witness :
    1 ≤ 4 ∧
    (thread_args (blackImage 2 10) (-2 : ℚ) 2 (-2) 2 3 4).reverse.Perm
      (thread_args (blackImage 2 10) (-2 : ℚ) 2 (-2) 2 3 4) ∧
    run_threads exactOps (thread_args (blackImage 2 10) (-2 : ℚ) 2 (-2) 2 3 4).reverse
        (blackImage 2 10)
      = compute_image exactOps (blackImage 2 10) (-2) 2 (-2) 2 3 1 ∧
    run_threads exactOps (thread_args (blackImage 2 8) (-2 : ℚ) 2 (-2) 2 3 4).reverse
        (blackImage 2 8)
      = compute_image exactOps (blackImage 2 8) (-2) 2 (-2) 2 3 1 :=
  ⟨by decide, List.reverse_perm _,
   compute_image_workers_agree exactOps (blackImage 2 10) (-2) 2 (-2) 2 3 4 (by decide)
     _ (List.reverse_perm _),
   compute_image_workers_agree exactOps (blackImage 2 8) (-2) 2 (-2) 2 3 4 (by decide)
     _ (List.reverse_perm _)⟩

/-- C3. For every point `(x0, y0)` and every `max ≥ 0`, `iterations_at_point` returns
`min(E, max)` where `E` is the first step at which the orbit has `|z|^2 > 4` (a value of
exactly 4 passes the test `<= 4` and does not stop the loop), and returns `max` when no
step `k ≤ max` escapes; hence two bounds give the same result whenever both results are
below `min(max1, max2)`.  In exact arithmetic `Escaped` is literally `4 < x^2 + y^2`. -/
theorem iterations_at_point_least_escape {D : Type} (A : DoubleOps D) (x0 y0 : D)
    (max : Int) (hmax : 0 ≤ max) :
    (∀ E : Nat, Escaped A x0 y0 E → (∀ j : Nat, j < E → ¬ Escaped A x0 y0 j) →
      iterations_at_point A x0 y0 max = min (E : Int) max) ∧
    ((∀ k : Nat, (k : Int) ≤ max → ¬ Escaped A x0 y0 k) →
      iterations_at_point A x0 y0 max = max) ∧
    (∀ max2 : Int,
      iterations_at_point A x0 y0 max < min max max2 →
      iterations_at_point A x0 y0 max2 < min max max2 →
      iterations_at_point A x0 y0 max = iterations_at_point A x0 y0 max2) ∧
    (∀ (x y : ℚ) (k : Nat), Escaped exactOps x y k ↔
      4 < (orbit exactOps x y k).1 * (orbit exactOps x y k).1
        + (orbit exactOps x y k).2 * (orbit exactOps x y k).2) := by
  obtain ⟨h0, h1, h2, h3⟩ := iterations_at_point_spec A x0 y0 max hmax
  refine ⟨?_, ?_, ?_, ?_⟩
  · intro E hE hmin
    have hle : iterations_at_point A x0 y0 max ≤ E := by
      by_contra hlt
      exact h2 E (by omega) hE
    have hge : iterations_at_point A x0 y0 max < max →
        (E : Int) ≤ iterations_at_point A x0 y0 max := by
      intro hlt
      by_contra hlt2
      exact hmin _ (by omega) (h3 hlt)
    rcases lt_or_eq_of_le h1 with hlt | heq
    · have := hge hlt
      omega
    · omega
  · intro hnone
    by_contra hne
    have hlt : iterations_at_point A x0 y0 max < max := lt_of_le_of_ne h1 hne
    exact hnone _ (by omega) (h3 hlt)
  · intro max2 hr1 hr2
    rcases lt_or_le max2 0 with hneg | hpos
    · rw [iterations_at_point_neg A x0 y0 max2 hneg] at hr2
      omega
    · obtain ⟨g0, g1, g2, g3⟩ := iterations_at_point_spec A x0 y0 max2 hpos
      have e1 := h3 (by omega)
      have e2 := g3 (by omega)
      by_contra hne
      rcases lt_or_gt_of_ne hne with hlt | hgt
      · exact g2 (iterations_at_point A x0 y0 max).toNat (by omega) e1
      · exact h2 (iterations_at_point A x0 y0 max2).toNat (by omega) e2
  · intro x y k
    simp [Escaped, inside, exactOps]

/-- Witness for C3: the point `(1, 1)` with bound 5 in exact arithmetic, whose orbit
`(1,1), (1,3), ...` first leaves the disc at step 1. -/
theorem iterations_at_point_least_escape_witness :
    (0 : Int) ≤ 5 ∧ iterations_at_point exactOps 1 1 5 = min ((1 : Nat) : Int) 5 ∧
      iterations_at_point exactOps 1 1 5 = 1 :=
  ⟨by decide,
   (iterations_at_point_least_escape exactOps 1 1 5 (by decide)).1 1
     (by norm_num [Escaped, inside, orbit, exactOps])
     (by
       intro j hj
       have hj0 : j = 0 := by omega
       subst hj0
       norm_num [Escaped, inside, orbit, exactOps]),
   by norm_num [iterations_at_point, iterations_loop, exactOps]⟩

/-- C4 (failing inputs). With the default bound, `iteration_to_color(1000, 1000)` is
`-402654`, not `0xFFFFFF`: the `int` product `0xFFFFFF * 1000` wraps to `-402654184`.
The first bound that overflows is 129: `iteration_to_color(129, 129) = -16517105`, which
is neither `0xFFFFFF` nor the floor `-16517106` of the wrapped quotient, and it is below
`iteration_to_color(128, 129) = 16647159`, so the mapping is not monotonic. -/
theorem iteration_to_color_overflow :
    wrap32 (0xFFFFFF * 1000) = -402654184 ∧
    iteration_to_color exactOps 1000 1000 = -402654 ∧
    iteration_to_color exactOps 129 129 = -16517105 ∧
    wrap32 (0xFFFFFF * 129) / 129 = -16517106 ∧
    iteration_to_color exactOps 128 129 = 16647159 ∧
    iteration_to_color exactOps 129 129 < iteration_to_color exactOps 128 129 := by
  rw [iteration_to_color_exact 1000 1000 (by decide),
    iteration_to_color_exact 129 129 (by decide),
    iteration_to_color_exact 128 129 (by decide)]
  decide

/-- Counterexample to C5: in exact arithmetic frame 1 is `(0.18, 0.18, 3.6)` and frame 2
has `centerX = 0.342`, whereas frame 1's `centerX` plus frame 1's `scale` times `0.05`
is `0.36`. -/
theorem movie_frame2_centerX_old_scale :
    (movie_frames exactOps)[1]? = some ⟨1, 9 / 50, 9 / 50, 18 / 5⟩ ∧
    (movie_frames exactOps)[2]? = some ⟨2, 171 / 500, 171 / 500, 81 / 25⟩ ∧
    (171 / 500 : ℚ) ≠ exactOps.add (9 / 50) (exactOps.mul (18 / 5) (exactOps.lit 0.05)) := by
  refine ⟨?_, ?_, ?_⟩
  · norm_num [movie_frames, TOTAL_IMAGES, frame_loop, exactOps]
  · norm_num [movie_frames, TOTAL_IMAGES, frame_loop, exactOps]
  · norm_num [exactOps]

/-- C5 (amended). Frame 2's `centerX` equals frame 1's `centerX` plus frame 2's `scale`
times `0.05`, where frame 2's `scale` is frame 1's `scale` times `0.9`. -/
theorem movie_frame2_centerX {D : Type} (A : DoubleOps D) :
    ∃ f1 f2 : FrameCall D,
      (movie_frames A)[1]? = some f1 ∧ (movie_frames A)[2]? = some f2 ∧
      f1.frame = 1 ∧ f2.frame = 2 ∧
      f2.scale = A.mul f1.scale (A.lit 0.9) ∧
      f2.x = A.add f1.x (A.mul f2.scale (A.lit 0.05)) := by
  obtain ⟨f, g, h1, h2, h3, h4, h5, h6, _⟩ :=
    frame_loop_step A TOTAL_IMAGES 0 (A.lit 0.0) (A.lit 0.0) (A.lit 4.0) 1 (by decide)
  exact ⟨f, g, h1, h2, by omega, by omega, h5, h6⟩

/-- C6. The main loop of `mandelmovie` dispatches exactly 50 frames with frame indices
`0, 1, ..., 49` in increasing order; frame 0 has `(centerX, centerY, scale) = (0, 0, 4.0)`
and for every `i < 49` frame `i+1` has `scale = scale_i * 0.9`,
`centerX = centerX_i + scale_{i+1} * 0.05` and `centerY = centerY_i + scale_{i+1} * 0.05`
(the shift uses the new scale); in exact arithmetic these are `0.9 * scale_i` and
`centerX_i + 0.05 * scale_{i+1}`, and frame 1's scale is `3.6`. -/
theorem movie_frames_sequence {D : Type} (A : DoubleOps D) :
    (movie_frames A).length = 50 ∧
    (movie_frames A).map (fun f => f.frame) = List.range 50 ∧
    (movie_frames A)[0]? = some ⟨0, A.lit 0.0, A.lit 0.0, A.lit 4.0⟩ ∧
    (∀ i, i < 49 → ∃ f g : FrameCall D,
      (movie_frames A)[i]? = some f ∧ (movie_frames A)[i + 1]? = some g ∧
      f.frame = i ∧ g.frame = i + 1 ∧
      g.scale = A.mul f.scale (A.lit 0.9) ∧
      g.x = A.add f.x (A.mul g.scale (A.lit 0.05)) ∧
      g.y = A.add f.y (A.mul g.scale (A.lit 0.05))) ∧
    (∀ i, i < 49 → ∃ f g : FrameCall ℚ,
      (movie_frames exactOps)[i]? = some f ∧ (movie_frames exactOps)[i + 1]? = some g ∧
      g.scale = 0.9 * f.scale ∧ g.x = f.x + 0.05 * g.scale ∧ g.y = f.y + 0.05 * g.scale) ∧
    (∃ f : FrameCall ℚ, (movie_frames exactOps)[1]? = some f ∧ f.scale = 3.6) := by
  refine ⟨?_, ?_, rfl, ?_, ?_, ?_⟩
  · exact frame_loop_length A _ _ _ _ _
  · rw [List.range_eq_range']
    exact frame_loop_indices A _ _ _ _ _
  · intro i hi
    obtain ⟨f, g, h1, h2, h3, h4, h5, h6, h7⟩ :=
      frame_loop_step A TOTAL_IMAGES 0 (A.lit 0.0) (A.lit 0.0) (A.lit 4.0) i
        (by unfold TOTAL_IMAGES; omega)
    exact ⟨f, g, h1, h2, by omega, by omega, h5, h6, h7⟩
  · intro i hi
    obtain ⟨f, g, h1, h2, _, _, h5, h6, h7⟩ :=
      frame_loop_step exactOps TOTAL_IMAGES 0 (exactOps.lit 0.0) (exactOps.lit 0.0)
        (exactOps.lit 4.0) i (by unfold TOTAL_IMAGES; omega)
    refine ⟨f, g, h1, h2, ?_, ?_, ?_⟩
    · rw [h5]; simp only [exactOps]; ring
    · rw [h6]; simp only [exactOps]; ring
    · rw [h7]; simp only [exactOps]; ring
  · obtain ⟨f, g, h1, h2, _, _, h5, _, _⟩ :=
      frame_loop_step exactOps TOTAL_IMAGES 0 (exactOps.lit 0.0) (exactOps.lit 0.0)
        (exactOps.lit 4.0) 0 (by decide)
    refine ⟨g, h2, ?_⟩
    have hf : f = ⟨0, exactOps.lit 0.0, exactOps.lit 0.0, exactOps.lit 4.0⟩ := by
      have h0 : (movie_frames exactOps)[0]? = some f := h1
      have h0b : (movie_frames exactOps)[0]?
          = some ⟨0, exactOps.lit 0.0, exactOps.lit 0.0, exactOps.lit 4.0⟩ := rfl
      rw [h0b] at h0
      exact (Option.some.inj h0).symm
    rw [h5, hf]
    norm_num [exactOps]

/-- C7 (failing input). `sem_open` is called with `O_CREAT` and without `O_EXCL`, so
when a semaphore named `/mandel_sem` exists already its value is kept and
`num_processes` is ignored: started with `-p 1` on a semaphore left at 3, the scheduler
dispatches three jobs that are active at once.  The active jobs are bounded by the value
`sem_open` returned, which is `maxConcurrent` only when the semaphore was created by this
run. -/
theorem stale_semaphore_exceeds_bound :
    Sched.run 1 threeDispatches (Sched.init (some 3) 1)
      = some { sem := 0, frame := 3, holding := false, active := 3, posted := 0,
               zombies := 0, dispatched := 3, i := 0, reaped := 0, returned := false } ∧
    Sched.Reachable (some 3) 1
      { sem := 0, frame := 3, holding := false, active := 3, posted := 0, zombies := 0,
        dispatched := 3, i := 0, reaped := 0, returned := false } ∧
    (∀ (existing : Option Nat) (n : Nat) (s : Sched), Sched.Reachable existing n s →
      s.sem + s.active ≤ sem_open existing n) ∧
    (∀ (n : Nat) (s : Sched), Sched.Reachable none n s → s.active ≤ n) := by
  refine ⟨by decide, ?_, ?_, ?_⟩
  · exact Sched.run_reachable (some 3) 1 threeDispatches (Sched.init (some 3) 1) _
      Sched.Reachable.init (by decide)
  · intro existing n s hs
    obtain ⟨h1, _⟩ := Sched.inv_reachable existing n s hs
    omega
  · intro n s hs
    obtain ⟨h1, _⟩ := Sched.inv_reachable none n s hs
    have hv : sem_open none n = n := rfl
    rw [hv] at h1
    omega

/-- C8 (failing input). The reaping loop calls `wait` `num_processes` times, not once per
dispatched job: whenever `main` has returned it has reaped at most `num_processes`
children, and with `num_processes = 1` (the semaphore created by this run) there is a run
in which all 50 jobs were dispatched, one child was reaped, 48 exited children are
unreaped and the job of frame 49 is still running when `main` returns. -/
theorem main_returns_before_all_reaped :
    (∀ (existing : Option Nat) (n : Nat) (s : Sched), Sched.Reachable existing n s →
      s.returned = true → s.reaped ≤ n) ∧
    Sched.run 1 earlyReturnSchedule (Sched.init none 1)
      = some { sem := 0, frame := 50, holding := false, active := 1, posted := 0,
               zombies := 48, dispatched := 50, i := 1, reaped := 1, returned := true } ∧
    Sched.Reachable none 1
      { sem := 0, frame := 50, holding := false, active := 1, posted := 0,
        zombies := 48, dispatched := 50, i := 1, reaped := 1, returned := true } := by
  refine ⟨?_, by decide, ?_⟩
  · intro existing n s hs _
    obtain ⟨_, h2, h3, _⟩ := Sched.inv_reachable existing n s hs
    omega
  · exact Sched.run_reachable none 1 earlyReturnSchedule (Sched.init none 1) _
      Sched.Reachable.init (by decide)

/-- C9. `iterations_at_point(0, 0, max) = max` for every `max ≥ 1`: the origin never
escapes, so the loop runs until the bound is reached (for every arithmetic in which
`0*0 = 0`, `0-0 = 0`, `0+0 = 0`, `2*0 = 0` and `0 <= 4`). -/
theorem iterations_at_point_origin {D : Type} (A : DoubleOps D) (hz : ZeroLaws A)
    (max : Int) (hmax : 1 ≤ max) :
    iterations_at_point A (A.ofInt 0) (A.ofInt 0) max = max := by
  unfold iterations_at_point
  rw [iterations_loop_origin A hz max max.toNat 0 (by omega)]
  omega

/-- Witness for C9: exact arithmetic and `max = 1000`, the default bound of `mandel`. -/
theorem iterations_at_point_origin_witness :
    ZeroLaws exactOps ∧ (1 : Int) ≤ 1000 ∧
      iterations_at_point exactOps (exactOps.ofInt 0) (exactOps.ofInt 0) 1000 = 1000 :=
  ⟨exactOps_zeroLaws, by decide,
   iterations_at_point_origin exactOps exactOps_zeroLaws 1000 (by decide)⟩

/-- C10 (failing input). With `-W 1 -H 2 -t 2` and worker 1 failing to start, `main`
does not fail in any controlled way: the result of `pthread_create` is discarded and the
join loop calls `pthread_join` on the handle that was never set, which is undefined
behaviour, where the failure-free run stores the raster and returns 0.  This holds for
every valid configuration with some worker not started, and no exit with a non-zero
status comes from a failed creation: those exits are the `-h` and `-t` checks. -/
theorem mandel_main_create_failure_undefined :
    mandel_main exactOps twoRowOptions (fun t => decide (t = 0)) = Outcome.undefined ∧
    mandel_main exactOps twoRowOptions (fun _ => true)
      = Outcome.exit 0 (some ⟨1, 2, [16777215, 16777215]⟩) ∧
    (∀ (D : Type) (A : DoubleOps D) (o : Options D) (created : Nat → Bool),
      o.help = false → 1 ≤ o.threads.getD 1 → o.threads.getD 1 ≤ 20 →
      (∃ t, t < (o.threads.getD 1).toNat ∧ created t = false) →
      mandel_main A o created = Outcome.undefined) ∧
    (∀ (D : Type) (A : DoubleOps D) (o : Options D) (created : Nat → Bool)
      (status : Int) (stored : Option imgRawImage),
      mandel_main A o created = Outcome.exit status stored → status ≠ 0 →
      o.help = true ∨ o.threads.getD 1 < 1 ∨ 20 < o.threads.getD 1) := by
  refine ⟨?_, ?_, ?_, ?_⟩
  · exact mandel_main_failed exactOps twoRowOptions _ rfl (by decide) (by decide)
      ⟨1, by decide, by decide⟩
  · simp [mandel_main, twoRowOptions, compute_image_created, run_threads, blackImage,
      thread_arg, start_row, end_row, compute_region, List.range', List.range_succ,
      List.filter, setPixelCOLOR, iterations_at_point, iterations_loop, iteration_to_color,
      wrap32, exactOps]
    norm_num
  · intro D A o created hhelp h1 h20 hfail
    exact mandel_main_failed A o created hhelp h1 h20 hfail
  · intro D A o created status stored h hs
    exact mandel_main_nonzero A o created status stored h hs

end Mandel
